import Mathlib

/-!
Verification of the internal-signal extraction script
(`extract_internal_signals.py`).

The script scans a hardware-description source text with three regular
expressions (built with Python's `re` module):

* a wire pattern `(?<!input\s{0})(?<!output\s{0})...(?<!input\s{16})(?<!output\s{16})wire\s*(\[[`a-zA-Z0-9\_\-\+\:\*/ ]+\](?:[ ]*)?){0,2}\s+([a-zA-Z\_0-9\$]+)\s*;?`,
* the same pattern with `wire` replaced by `reg`,
* a module-name pattern `(?<!(?: |/|[a-zA-Z\_]))module\s+(?:\$\[PREFIX\])?([a-zA-Z\_0-9]+)[\n\s]*#?[\n\s]*\(`.

Below the patterns are embedded as explicit backtracking matchers over
`List Char`, with the same leftmost, greedy, non-overlapping `findall`
semantics (for ASCII input, where Python's `\s` is space, tab, newline,
carriage return, vertical tab and form feed).  The surrounding pipeline
(module-name resolution, deduplication, dictionary building, CSV and text
report contents) is embedded as a pure function; the unordered iteration
of Python's `set` is modelled by an oracle parameter, and unbound-variable
failures (`NameError`) by an error value.
-/

namespace ExtractSignals

/-- Whitespace characters matched by `\s` on ASCII text. -/
def wsChar (c : Char) : Bool :=
  c == ' ' || c == '\t' || c == '\n' || c == '\r' || c.toNat == 11 || c.toNat == 12

/-- Characters of a signal identifier, the class `[a-zA-Z\_0-9\$]`. -/
def identChar (c : Char) : Bool :=
  c.isAlpha || c.isDigit || c == '_' || c == '$'

/-- Characters allowed inside a bracketed dimension, the class
with backtick, letters, digits, underscore, minus, plus, colon, star,
slash and space. -/
def dimChar (c : Char) : Bool :=
  c.toNat == 96 || c.isAlpha || c.isDigit || c == '_' || c == '-' ||
  c == '+' || c == ':' || c == '*' || c == '/' || c == ' '

/-- Characters of a module identifier, the class `[a-zA-Z\_0-9]`. -/
def modIdentChar (c : Char) : Bool :=
  c.isAlpha || c.isDigit || c == '_'

/-- Does the second list start with the first one? -/
def listStarts : List Char → List Char → Bool
  | [], _ => true
  | _ :: _, [] => false
  | a :: as, b :: bs => a == b && listStarts as bs

/-- Length of the longest prefix whose characters all satisfy `f`. -/
def maxRun (f : Char → Bool) : List Char → Nat
  | [] => 0
  | c :: r => if f c then maxRun f r + 1 else 0

/-- Try `f` at `n`, `n-1`, ..., `0`; return the first `some`.
This is the greedy backtracking order of a `*` quantifier. -/
def firstSome (f : Nat → Option α) : Nat → Option α
  | 0 => f 0
  | n + 1 => (f (n + 1)).orElse fun _ => firstSome f n

/-- Try `f` at `n`, `n-1`, ..., `1`; return the first `some`.
This is the greedy backtracking order of a `+` quantifier. -/
def firstSomePos (f : Nat → Option α) : Nat → Option α
  | 0 => none
  | n + 1 => (f (n + 1)).orElse fun _ => firstSomePos f n

/-- One repetition of the dimension group `\[[...]+\](?:[ ]*)?` at the
front of `l`.  The continuation `k` receives the number of characters the
repetition consumed (bracket, contents, bracket, then a backtracked-over
run of plain spaces); the repetition backtracks over the space count,
longest first. -/
def dimRep (l : List Char) (k : Nat → Option α) : Option α :=
  match l with
  | '[' :: r =>
    let d := maxRun dimChar r
    if 1 ≤ d then
      match r.drop d with
      | ']' :: r2 => firstSome (fun j => k (2 + d + j)) (maxRun (fun c => c == ' ') r2)
      | _ => none
    else none
  | _ => none

/-- The tail `\s+([a-zA-Z\_0-9\$]+)\s*;?` of the wire/reg pattern at the
front of `s`: mandatory whitespace, the captured identifier, optional
trailing whitespace and an optional semicolon.  Returns the consumed
length and the identifier. -/
def tailMatch (s : List Char) : Option (Nat × List Char) :=
  firstSomePos (fun j =>
    let s2 := s.drop j
    let r := maxRun identChar s2
    if 1 ≤ r then
      let s3 := s2.drop r
      let w2 := maxRun wsChar s3
      let semi := if (s3.drop w2).head? == some ';' then 1 else 0
      some (j + r + w2 + semi, s2.take r)
    else none) (maxRun wsChar s)

/-- The part `\s*(\[...\](?:[ ]*)?){0,2}\s+(ident)\s*;?` of the wire/reg
pattern after the keyword: optional whitespace, up to two dimension
groups (greedy, the capture keeps only the last repetition, as Python's
`re` does), then the tail.  Returns consumed length, the dimension
capture (empty when the group did not participate) and the name. -/
def afterKw (s1 : List Char) : Option (Nat × List Char × List Char) :=
  firstSome (fun a =>
    let s2 := s1.drop a
    let withReps :=
      dimRep s2 (fun r1 =>
        let s3 := s2.drop r1
        let two :=
          dimRep s3 (fun r2 =>
            (tailMatch (s3.drop r2)).map
              (fun t => (a + r1 + r2 + t.1, s3.take r2, t.2)))
        two.orElse fun _ =>
          (tailMatch s3).map (fun t => (a + r1 + t.1, s2.take r1, t.2)))
    withReps.orElse fun _ =>
      (tailMatch s2).map (fun t => (a + t.1, ([] : List Char), t.2)))
    (maxRun wsChar s1)

/-- The whole wire/reg pattern body (without the lookbehinds) at the
front of `suf`: the literal keyword, then `afterKw`.  Returns total
consumed length, dimension capture and name capture. -/
def bodyMatch (kw : List Char) (suf : List Char) : Option (Nat × List Char × List Char) :=
  if listStarts kw suf then
    (afterKw (suf.drop kw.length)).map (fun x => (kw.length + x.1, x.2))
  else none

/-- Does the reversed prefix start with `i` whitespace characters
followed by the reversed token `tokRev`?  This is the fixed-width
lookbehind `(?<!tok\s{i})` read backwards from the match position. -/
def revWsThenTok (tokRev : List Char) : Nat → List Char → Bool
  | 0, l => listStarts tokRev l
  | i + 1, c :: l => wsChar c && revWsThenTok tokRev i l
  | _ + 1, [] => false

def inputRev : List Char := ['t', 'u', 'p', 'n', 'i']
def outputRev : List Char := ['t', 'u', 'p', 't', 'u', 'o']

/-- The conjunction of the 34 generated lookbehinds
`(?<!input\s{i})(?<!output\s{i})` for `i = 0, ..., 16`, evaluated on the
reversed prefix: `true` means some lookbehind fires and the match is
blocked. -/
def portBlocked (preRev : List Char) : Bool :=
  (List.range 17).any fun i =>
    revWsThenTok inputRev i preRev || revWsThenTok outputRev i preRev

def wireKw : List Char := ['w', 'i', 'r', 'e']
def regKw : List Char := ['r', 'e', 'g']
def moduleKw : List Char := ['m', 'o', 'd', 'u', 'l', 'e']

/-- The declaration matcher of one keyword at one position: the
lookbehinds on the reversed prefix, then the pattern body on the
suffix. -/
def kindM (kw : List Char) (preRev suf : List Char) : Option (Nat × List Char × List Char) :=
  if portBlocked preRev then none else bodyMatch kw suf

/-- The full wire matcher at one position. -/
def wireM : List Char → List Char → Option (Nat × List Char × List Char) :=
  kindM wireKw

/-- The full reg matcher at one position (the wire pattern with `wire`
replaced by `reg`; the lookbehinds are unchanged). -/
def regM : List Char → List Char → Option (Nat × List Char × List Char) :=
  kindM regKw

/-- The part of the module pattern after the identifier:
`[\n\s]*#?[\n\s]*\(`.  Deterministic: a whitespace run, then either an
opening parenthesis, or a hash, another whitespace run and an opening
parenthesis.  Returns the consumed length. -/
def afterModIdent (s : List Char) : Option Nat :=
  let w1 := maxRun wsChar s
  match s.drop w1 with
  | '(' :: _ => some (w1 + 1)
  | '#' :: r =>
    let w2 := maxRun wsChar r
    match r.drop w2 with
    | '(' :: _ => some (w1 + 1 + w2 + 1)
    | _ => none
  | _ => none

/-- The literal placeholder token of the module pattern. -/
def placeToken : List Char := "$[PREFIX]".toList

/-- The captured identifier and the rest of the module pattern at the
front of `s`: `([a-zA-Z\_0-9]+)[\n\s]*#?[\n\s]*\(`. -/
def modIdentTail (s : List Char) : Option (Nat × List Char) :=
  let r := maxRun modIdentChar s
  if 1 ≤ r then
    (afterModIdent (s.drop r)).map (fun n => (r + n, s.take r))
  else none

/-- The module pattern body
`module\s+(?:\$\[PREFIX\])?([a-zA-Z\_0-9]+)[\n\s]*#?[\n\s]*\(` at the
front of `suf`.  Returns consumed length and the captured identifier. -/
def moduleBody (suf : List Char) : Option (Nat × List Char) :=
  if listStarts moduleKw suf then
    (firstSomePos (fun j =>
      let s2 := (suf.drop 6).drop j
      let withTok :=
        if listStarts placeToken s2 then
          (modIdentTail (s2.drop 9)).map (fun x => (j + 9 + x.1, x.2))
        else none
      withTok.orElse fun _ =>
        (modIdentTail s2).map (fun x => (j + x.1, x.2)))
      (maxRun wsChar (suf.drop 6))).map (fun x => (6 + x.1, x.2))
  else none

/-- The single-character module lookbehind `(?<!(?: |/|[a-zA-Z\_]))`:
the match is blocked when the character just before it is a space, a
slash, a letter or an underscore. -/
def moduleBlocked (preRev : List Char) : Bool :=
  match preRev with
  | [] => false
  | c :: _ => c == ' ' || c == '/' || c.isAlpha || c == '_'

/-- The full module-name matcher at one position. -/
def moduleM (preRev suf : List Char) : Option (Nat × List Char) :=
  if moduleBlocked preRev then none else moduleBody suf

section GenScan

variable {α : Type} (m : List Char → List Char → Option (Nat × α))

/-- One left-to-right, non-overlapping scan of the text, as
`re.findall` performs it: at each position try the matcher (the reversed
prefix feeds the lookbehinds, the suffix feeds the body); on a match of
positive length emit `(position, length, capture)` and resume right
after the match, otherwise move one character forward.  The fuel only
serves structural recursion; `length suf` steps always suffice. -/
def scanFuel : Nat → List Char → List Char → List (Nat × Nat × α)
  | 0, _, _ => []
  | _ + 1, _, [] => []
  | fuel + 1, preRev, c :: rest =>
    match m preRev (c :: rest) with
    | some (Nat.succ n, a) =>
      (preRev.length, n + 1, a) ::
        scanFuel fuel (((c :: rest).take (n + 1)).reverse ++ preRev)
          ((c :: rest).drop (n + 1))
    | _ => scanFuel fuel (c :: preRev) rest

/-- All matches of `m` over `text`, in source order. -/
def scanAll (text : List Char) : List (Nat × Nat × α) :=
  scanFuel m (text.length + 1) [] text

/-- The matcher applied at an absolute position of the text. -/
def occAt (text : List Char) (p : Nat) : Option (Nat × α) :=
  m ((text.take p).reverse) (text.drop p)

/-- The positions of the text at which the matcher succeeds,
irrespective of the non-overlapping scan. -/
def occPositions (text : List Char) : List Nat :=
  (List.range (text.length + 1)).filter (fun p => (occAt m text p).isSome)

/-- Pairwise non-overlap of all match candidates of a text. -/
def NoOverlap (text : List Char) : Prop :=
  ∀ q ℓ a p, occAt m text q = some (ℓ, a) → (occAt m text p).isSome → q < p → q + ℓ ≤ p

end GenScan

/-- Raw wire occurrences of a source text: ordered `(dimension, name)`
pairs, as `re.findall` returns them. -/
def wireRawList (text : String) : List (String × String) :=
  (scanAll wireM text.toList).map (fun x => (String.mk x.2.2.1, String.mk x.2.2.2))

/-- Raw register occurrences of a source text. -/
def regRawList (text : String) : List (String × String) :=
  (scanAll regM text.toList).map (fun x => (String.mk x.2.2.1, String.mk x.2.2.2))

/-- All module-name captures of a source text. -/
def moduleIdents (text : String) : List String :=
  (scanAll moduleM text.toList).map (fun x => String.mk x.2.2)

/-- The module-name resolution step: the single capture when the scan
found exactly one, otherwise the fallback name together with a raised
diagnostic flag. -/
def resolveModule (text : String) : String × Bool :=
  match moduleIdents text with
  | [id] => (id, false)
  | _ => ("module", true)

/-- The raw wire occurrence names, in source order. -/
def wireNamesOf (text : String) : List String :=
  (wireRawList text).map (fun x => x.2)

/-- The raw register occurrence names, in source order. -/
def regNamesOf (text : String) : List String :=
  (regRawList text).map (fun x => x.2)

/-- Insert into an insertion-ordered dictionary, as a Python `dict`
assignment does: an existing key keeps its position and gets the new
value, a new key is appended. -/
def dictInsert (d : List (String × String)) (k v : String) : List (String × String) :=
  if d.any (fun p => p.1 == k) then
    d.map (fun p => if p.1 == k then (k, v) else p)
  else d ++ [(k, v)]

/-- The name-to-dimension dictionary built by iterating the raw
`(dimension, name)` occurrences in order and assigning
`dict[name] = dimension` at each step. -/
def buildDict (l : List (String × String)) : List (String × String) :=
  l.foldl (fun d p => dictInsert d p.2 p.1) []

/-- The CSV file contents: the header row, then one `name,dimension`
row per dictionary entry, in dictionary order. -/
def csvTextOf (d : List (String × String)) : String :=
  d.foldl (fun s p => s ++ p.1 ++ "," ++ p.2 ++ "\r\n") "Field Name,Field Dimension\r\n"

/-- The bar of 75 equals signs used by the report headers. -/
def eqBar : String := String.mk (List.replicate 75 '=')

/-- The wires section of the text report: the header naming the input
file, then one `name   dimension` line per raw wire occurrence. -/
def wiresSection (fileName : String) (wires : List (String × String)) : String :=
  ("\n\n" ++ eqBar ++ "\n\t\tInternal Wires of " ++ fileName ++ "\n" ++ eqBar ++ "\n\n")
    ++ (wires.foldl (fun s p => s ++ p.2 ++ "   " ++ p.1 ++ "\n") "")

/-- The registers section of the text report, of the same shape. -/
def regsSection (fileName : String) (regs : List (String × String)) : String :=
  ("\n\n" ++ eqBar ++ "\n\t\tInternal Registers of " ++ fileName ++ "\n" ++ eqBar ++ "\n\n")
    ++ (regs.foldl (fun s p => s ++ p.2 ++ "   " ++ p.1 ++ "\n") "")

/-- The runtime failure of the script: reading a variable that was
never bound (Python's `NameError`), which aborts the process. -/
inductive PyError where
  | nameError (unboundName : String)
deriving DecidableEq

/-- Everything the extraction pipeline produces on a successful run. -/
structure RunOutput where
  moduleName : String
  ambiguous : Bool
  wires : List (String × String)
  regs : List (String × String)
  numUniqueWireNames : Nat
  numUniqueRegNames : Nat
  numUniqueSignalNames : Nat
  csvRows : List (String × String)
  csvText : String
  reportStr : String
  csvFileName : String
  txtFileName : String
deriving DecidableEq, Inhabited

/-- The extraction pipeline after the file has been read: module-name
resolution, the two scans, the dedup counts, the dictionary and both
output files.  `o` models the unordered enumeration of a Python `set`
(a faithful instance enumerates each distinct element exactly once).
When a scan finds no matches the corresponding count variable is never
bound, so computing the total raises `NameError` and the run aborts
before either output file is written. -/
def run (o : List String → List String) (fileName text : String) :
    Except PyError RunOutput :=
  let nameRes := resolveModule text
  let wires := wireRawList text
  let regs := regRawList text
  if regs = [] ∨ wires = [] then
    Except.error (PyError.nameError
      (if regs = [] then "numInternalRegs" else "numInternalWires"))
  else
    let uniqueWireNames := o (wires.map (fun x => x.2))
    let uniqueRegNames := o (regs.map (fun x => x.2))
    let dict := buildDict (wires ++ regs)
    Except.ok {
      moduleName := nameRes.1
      ambiguous := nameRes.2
      wires := wires
      regs := regs
      numUniqueWireNames := uniqueWireNames.length
      numUniqueRegNames := uniqueRegNames.length
      numUniqueSignalNames := (uniqueWireNames ++ uniqueRegNames).length
      csvRows := dict
      csvText := csvTextOf dict
      reportStr := wiresSection fileName wires ++ regsSection fileName regs
      csvFileName := nameRes.1 ++ "_internal_signals.csv"
      txtFileName := nameRes.1 ++ "_internal_signals.txt" }

/-- The files a finished run leaves on disk: none when the run aborted,
the CSV file and the text report when it succeeded. -/
def filesWritten : Except PyError RunOutput → List (String × String)
  | Except.error _ => []
  | Except.ok out => [(out.csvFileName, out.csvText), (out.txtFileName, out.reportStr)]

/-- The whole program including the argument and file checks: with a
bare argument vector, or no usable filename argument, or a path that is
not an existing file, the program exits before opening any output file. -/
def mainFiles (argvLen : Nat) (filenameArg : Option String)
    (disk : String → Option String) (o : List String → List String) :
    List (String × String) :=
  if argvLen = 1 then []
  else
    match filenameArg with
    | none => []
    | some fn =>
      match disk fn with
      | none => []
      | some text => filesWritten (run o fn text)

/-- Is `pat` a contiguous substring of `s`? -/
def subList (pat : List Char) : List Char → Bool
  | [] => listStarts pat []
  | c :: r => listStarts pat (c :: r) || subList pat r

/-- Is `pat` a contiguous substring of the string `s`? -/
def containsSub (pat s : String) : Bool := subList pat.toList s.toList

/-- The keyword occurrence at position `p` is preceded, with `i`
intervening whitespace characters for some `i` between 0 and 16, by the
literal characters `input` or `output`.  This is the condition the
generated lookbehinds test. -/
def PrecededByPort (text : List Char) (p : Nat) : Prop :=
  ∃ i, i ≤ 16 ∧
    (revWsThenTok inputRev i ((text.take p).reverse) = true ∨
     revWsThenTok outputRev i ((text.take p).reverse) = true)

instance (text : List Char) (p : Nat) : Decidable (PrecededByPort text p) :=
  decidable_of_iff (portBlocked ((text.take p).reverse) = true)
    (by
      unfold portBlocked PrecededByPort
      rw [List.any_eq_true]
      constructor
      · rintro ⟨i, hmem, h⟩
        rw [List.mem_range] at hmem
        rw [Bool.or_eq_true] at h
        exact ⟨i, by omega, h⟩
      · rintro ⟨i, hi, h⟩
        refine ⟨i, List.mem_range.mpr (by omega), ?_⟩
        rw [Bool.or_eq_true]
        exact h)

/-- Shape of one matched bracketed dimension group, exactly as it
stands in the text: an opening bracket, a non-empty run of dimension
characters, a closing bracket, then the plain spaces the group's
trailing quantifier absorbed. -/
def GroupShape (g : List Char) : Prop :=
  ∃ inner sp, g = '[' :: (inner ++ ']' :: sp) ∧ 1 ≤ inner.length ∧
    inner.all dimChar = true ∧ sp.all (fun c => c == ' ') = true

/-- The module lookbehind as the specification describes it: only a
letter, an underscore or a slash just before the keyword blocks a
match (the code additionally blocks on a space). -/
def claimModuleBlocked (preRev : List Char) : Bool :=
  match preRev with
  | [] => false
  | c :: _ => c == '/' || c.isAlpha || c == '_'

/-- The module-name matcher with the specification's lookbehind in
place of the code's. -/
def claimModuleM (preRev suf : List Char) : Option (Nat × List Char) :=
  if claimModuleBlocked preRev then none else moduleBody suf

/-- The input text of the end-to-end example. -/
def endToEndText : String :=
  "module foo (\ninput wire clk;\noutput reg [7:0] data;\nwire [3:0] internal_a;\nreg internal_b;\nreg internal_b;\n"

/-- The run output of the end-to-end example, with a faithful set
enumeration. -/
def endToEndOut : RunOutput :=
  (run List.dedup "foo.v" endToEndText).toOption.get!

/-- A source text whose register occurrences are the deduplication
example of the specification: `a`, then `b` with a dimension, then `a`
again. -/
def dedupExampleText : String :=
  "wire w;\nreg a;\nreg [3:0] b;\nreg a;\n"

/-- The run output of the deduplication example. -/
def dedupExampleOut : RunOutput :=
  (run List.dedup "m.v" dedupExampleText).toOption.get!

section GenScanLemmas

variable {α : Type} {m : List Char → List Char → Option (Nat × α)}

theorem scanFuel_sound :
    ∀ (fuel : Nat) (pre suf : List Char) (p ℓ : Nat) (a : α),
      (p, ℓ, a) ∈ scanFuel m fuel pre suf →
      pre.length ≤ p ∧ occAt m (pre.reverse ++ suf) p = some (ℓ, a) := by
  intro fuel
  induction fuel with
  | zero => intro pre suf p ℓ a h; simp [scanFuel] at h
  | succ fuel ih =>
    intro pre suf p ℓ a h
    match suf with
    | [] => simp [scanFuel] at h
    | c :: rest =>
      rw [scanFuel] at h
      cases hm : m pre (c :: rest) with
      | none =>
        rw [hm] at h
        have := ih (c :: pre) rest p ℓ a h
        constructor
        · have := this.1; simp at this; omega
        · have h2 := this.2
          rw [show (c :: pre).reverse ++ rest = pre.reverse ++ (c :: rest) by
            simp [List.reverse_cons]] at h2
          exact h2
      | some v =>
        match v with
        | (0, b) =>
          rw [hm] at h
          have := ih (c :: pre) rest p ℓ a h
          constructor
          · have := this.1; simp at this; omega
          · have h2 := this.2
            rw [show (c :: pre).reverse ++ rest = pre.reverse ++ (c :: rest) by
              simp [List.reverse_cons]] at h2
            exact h2
        | (n + 1, b) =>
          rw [hm] at h
          simp only [List.mem_cons] at h
          rcases h with heq | htail
          · have hp : p = pre.length := by
              have := congrArg Prod.fst heq; simpa using this
            have hℓ : ℓ = n + 1 ∧ a = b := by
              have h2 := congrArg Prod.snd heq; simp at h2
              exact ⟨h2.1, h2.2⟩
            subst hp
            refine ⟨le_refl _, ?_⟩
            unfold occAt
            rw [show pre.length = pre.reverse.length by simp,
              List.take_left, List.drop_left, List.reverse_reverse]
            rw [hm, hℓ.1, hℓ.2]
          · have := ih _ _ p ℓ a htail
            constructor
            · have h1 := this.1
              simp [List.length_append, List.length_reverse, List.length_take] at h1
              omega
            · have h2 := this.2
              rw [show (((c :: rest).take (n + 1)).reverse ++ pre).reverse ++
                    (c :: rest).drop (n + 1) = pre.reverse ++ (c :: rest) by
                simp [List.reverse_append, List.reverse_reverse, List.append_assoc]] at h2
              exact h2

theorem scanFuel_len_pos :
    ∀ (fuel : Nat) (pre suf : List Char) (p ℓ : Nat) (a : α),
      (p, ℓ, a) ∈ scanFuel m fuel pre suf → 1 ≤ ℓ := by
  intro fuel
  induction fuel with
  | zero => intro pre suf p ℓ a h; simp [scanFuel] at h
  | succ fuel ih =>
    intro pre suf p ℓ a h
    match suf with
    | [] => simp [scanFuel] at h
    | c :: rest =>
      rw [scanFuel] at h
      cases hm : m pre (c :: rest) with
      | none => rw [hm] at h; exact ih _ _ _ _ _ h
      | some v =>
        match v with
        | (0, b) => rw [hm] at h; exact ih _ _ _ _ _ h
        | (n + 1, b) =>
          rw [hm] at h
          simp only [List.mem_cons] at h
          rcases h with heq | htail
          · have := congrArg (fun x => x.2.1) heq; simp at this; omega
          · exact ih _ _ _ _ _ htail

theorem scanFuel_reach
    (hm1 : ∀ pre, m pre [] = none)
    (hm2 : ∀ pre suf n a, m pre suf = some (n, a) → 1 ≤ n) :
    ∀ (fuel : Nat) (pre suf : List Char) (p ℓ : Nat) (a : α),
      suf.length ≤ fuel →
      pre.length ≤ p →
      occAt m (pre.reverse ++ suf) p = some (ℓ, a) →
      (∀ q ℓ' b, (q, ℓ', b) ∈ scanFuel m fuel pre suf → q < p → q + ℓ' ≤ p) →
      (p, ℓ, a) ∈ scanFuel m fuel pre suf := by
  intro fuel
  induction fuel with
  | zero =>
    intro pre suf p ℓ a hfuel hp hocc _
    have hsuf : suf = [] := List.length_eq_zero.mp (Nat.le_zero.mp hfuel)
    subst hsuf
    exfalso
    unfold occAt at hocc
    rw [List.drop_eq_nil_of_le (by simpa using hp)] at hocc
    rw [hm1] at hocc
    exact Option.noConfusion hocc
  | succ fuel ih =>
    intro pre suf p ℓ a hfuel hp hocc hover
    match suf with
    | [] =>
      exfalso
      unfold occAt at hocc
      rw [List.drop_eq_nil_of_le (by simpa using hp)] at hocc
      rw [hm1] at hocc
      exact Option.noConfusion hocc
    | c :: rest =>
      have hatk : occAt m (pre.reverse ++ (c :: rest)) pre.length = m pre (c :: rest) := by
        unfold occAt
        rw [show pre.length = pre.reverse.length by simp,
          List.take_left, List.drop_left, List.reverse_reverse]
      by_cases hkp : pre.length = p
      · subst hkp
        have hm' : m pre (c :: rest) = some (ℓ, a) := by rw [← hatk]; exact hocc
        have hℓ1 : 1 ≤ ℓ := hm2 _ _ _ _ hm'
        match ℓ, hℓ1, hm' with
        | n + 1, _, hm' =>
          rw [scanFuel, hm']
          exact List.mem_cons_self _ _
      · have hklt : pre.length < p := lt_of_le_of_ne hp hkp
        cases hm : m pre (c :: rest) with
        | none =>
          have hstep : scanFuel m (fuel + 1) pre (c :: rest) =
              scanFuel m fuel (c :: pre) rest := by rw [scanFuel, hm]
          rw [hstep]
          apply ih (c :: pre) rest p ℓ a
          · simpa using Nat.le_of_succ_le_succ hfuel
          · simpa using hklt
          · rw [show (c :: pre).reverse ++ rest = pre.reverse ++ (c :: rest) by
              simp [List.reverse_cons]]
            exact hocc
          · intro q ℓ' b hmem hqlt
            apply hover q ℓ' b _ hqlt
            rw [hstep]; exact hmem
        | some v =>
          match v with
          | (0, b) =>
            exact absurd (hm2 _ _ _ _ hm) (by omega)
          | (n + 1, b) =>
            have hstep : scanFuel m (fuel + 1) pre (c :: rest) =
                (pre.length, n + 1, b) ::
                  scanFuel m fuel (((c :: rest).take (n + 1)).reverse ++ pre)
                    ((c :: rest).drop (n + 1)) := by rw [scanFuel, hm]
            rw [hstep]
            have hhead : pre.length + (n + 1) ≤ p := by
              apply hover pre.length (n + 1) b _ hklt
              rw [hstep]; exact List.mem_cons_self _ _
            apply List.mem_cons_of_mem
            apply ih
            · simp only [List.length_drop]
              simp only [List.length_cons] at hfuel ⊢
              omega
            · simp only [List.length_append, List.length_reverse, List.length_take]
              simp only [List.length_cons]
              omega
            · rw [show (((c :: rest).take (n + 1)).reverse ++ pre).reverse ++
                  (c :: rest).drop (n + 1) = pre.reverse ++ (c :: rest) by
                simp [List.reverse_append, List.reverse_reverse, List.append_assoc]]
              exact hocc
            · intro q ℓ' b' hmem hqlt
              apply hover q ℓ' b' _ hqlt
              rw [hstep]
              exact List.mem_cons_of_mem _ hmem

theorem scanFuel_nil (fuel : Nat) (pre : List Char) :
    scanFuel m fuel pre [] = [] := by
  cases fuel <;> rw [scanFuel]

theorem scanFuel_chain :
    ∀ (fuel : Nat) (pre suf : List Char),
      (scanFuel m fuel pre suf).Pairwise (fun x y => x.1 + x.2.1 ≤ y.1) := by
  intro fuel
  induction fuel with
  | zero => intro pre suf; rw [scanFuel]; exact List.Pairwise.nil
  | succ fuel ih =>
    intro pre suf
    match suf with
    | [] => rw [scanFuel]; exact List.Pairwise.nil
    | c :: rest =>
      rw [scanFuel]
      cases hm : m pre (c :: rest) with
      | none => exact ih _ _
      | some v =>
        match v with
        | (0, b) => exact ih _ _
        | (n + 1, b) =>
          refine List.Pairwise.cons ?_ (ih _ _)
          intro y hy
          by_cases hle : n + 1 ≤ (c :: rest).length
          · have := (scanFuel_sound fuel _ _ y.1 y.2.1 y.2.2 (by simpa using hy)).1
            simp only [List.length_append, List.length_reverse, List.length_take] at this
            simp only [List.length_cons] at hle this ⊢
            omega
          · exfalso
            rw [List.drop_eq_nil_of_le (by omega)] at hy
            rw [scanFuel_nil] at hy
            exact List.not_mem_nil y hy

theorem scanAll_sound {p ℓ : Nat} {a : α} {text : List Char}
    (h : (p, ℓ, a) ∈ scanAll m text) : occAt m text p = some (ℓ, a) := by
  have := (scanFuel_sound (text.length + 1) [] text p ℓ a h).2
  simpa using this

theorem occAt_some_lt_length (hm1 : ∀ pre, m pre [] = none)
    {text : List Char} {p : Nat} (h : (occAt m text p).isSome) :
    p < text.length := by
  by_contra hge
  unfold occAt at h
  rw [List.drop_eq_nil_of_le (by omega), hm1] at h
  simp at h

theorem mem_occPositions (hm1 : ∀ pre, m pre [] = none)
    {text : List Char} {p : Nat} :
    p ∈ occPositions m text ↔ (occAt m text p).isSome := by
  unfold occPositions
  rw [List.mem_filter, List.mem_range]
  constructor
  · exact fun h => h.2
  · intro h
    exact ⟨by have := occAt_some_lt_length hm1 h; omega, h⟩

theorem scanAll_reach
    (hm1 : ∀ pre, m pre [] = none)
    (hm2 : ∀ pre suf n a, m pre suf = some (n, a) → 1 ≤ n)
    {text : List Char} {p ℓ : Nat} {a : α}
    (hocc : occAt m text p = some (ℓ, a))
    (hover : ∀ q ℓ' b, (q, ℓ', b) ∈ scanAll m text → q < p → q + ℓ' ≤ p) :
    (p, ℓ, a) ∈ scanAll m text := by
  apply scanFuel_reach hm1 hm2 (text.length + 1) [] text p ℓ a
  · omega
  · exact Nat.zero_le p
  · simpa using hocc
  · exact hover

/-- When the matcher succeeds at exactly one position of the text, the
scan finds exactly that match. -/
theorem scanAll_of_single
    (hm1 : ∀ pre, m pre [] = none)
    (hm2 : ∀ pre suf n a, m pre suf = some (n, a) → 1 ≤ n)
    {text : List Char} {p ℓ : Nat} {a : α}
    (hsingle : occPositions m text = [p])
    (hocc : occAt m text p = some (ℓ, a)) :
    scanAll m text = [(p, ℓ, a)] := by
  have hmemocc : ∀ q ℓ' b, (q, ℓ', b) ∈ scanAll m text → (q, ℓ', b) = (p, ℓ, a) := by
    intro q ℓ' b hmem
    have hq := scanAll_sound hmem
    have hqin : q ∈ occPositions m text :=
      (mem_occPositions hm1).mpr (by rw [hq]; rfl)
    rw [hsingle, List.mem_singleton] at hqin
    subst hqin
    rw [hocc] at hq
    have := Option.some.inj hq
    rw [Prod.mk.injEq] at this
    rw [this.1, this.2]
  have hmem : (p, ℓ, a) ∈ scanAll m text := by
    apply scanAll_reach hm1 hm2 hocc
    intro q ℓ' b hmem hqlt
    have := hmemocc q ℓ' b hmem
    rw [Prod.mk.injEq] at this
    omega
  have hchain : (scanAll m text).Pairwise (fun x y => x.1 + x.2.1 ≤ y.1) :=
    scanFuel_chain _ _ _
  cases hscan : scanAll m text with
  | nil =>
    rw [hscan] at hmem
    exact absurd hmem (List.not_mem_nil _)
  | cons x t =>
    cases t with
    | nil =>
      obtain ⟨x1, x2, x3⟩ := x
      rw [hmemocc x1 x2 x3 (by rw [hscan]; exact List.mem_cons_self _ _)]
    | cons y l =>
      exfalso
      obtain ⟨x1, x2, x3⟩ := x
      obtain ⟨y1, y2, y3⟩ := y
      have hx := hmemocc x1 x2 x3 (by rw [hscan]; exact List.mem_cons_self _ _)
      have hy := hmemocc y1 y2 y3
        (by rw [hscan]; exact List.mem_cons_of_mem _ (List.mem_cons_self _ _))
      rw [hscan] at hchain
      have hxy : x1 + x2 ≤ y1 :=
        (List.pairwise_cons.mp hchain).1 (y1, y2, y3)
          (List.mem_cons_self _ _)
      rw [Prod.mk.injEq] at hx hy
      have hpos : 1 ≤ x2 := by
        have hmemx : (x1, x2, x3) ∈ scanAll m text := by
          rw [hscan]; exact List.mem_cons_self _ _
        exact scanFuel_len_pos (text.length + 1) [] text x1 x2 x3 hmemx
      obtain ⟨hx1, hx2, -⟩ := hx
      obtain ⟨hy1, -, -⟩ := hy
      omega

/-- When the matcher succeeds nowhere, the scan finds nothing. -/
theorem scanAll_of_empty (hm1 : ∀ pre, m pre [] = none)
    {text : List Char} (hempty : occPositions m text = []) :
    scanAll m text = [] := by
  cases hscan : scanAll m text with
  | nil => rfl
  | cons x t =>
    exfalso
    obtain ⟨x1, x2, x3⟩ := x
    have hmem : (x1, x2, x3) ∈ scanAll m text := by
      rw [hscan]; exact List.mem_cons_self _ _
    have hocc := scanAll_sound hmem
    have : x1 ∈ occPositions m text :=
      (mem_occPositions hm1).mpr (by rw [hocc]; rfl)
    rw [hempty] at this
    exact List.not_mem_nil _ this

/-- Under pairwise non-overlap, every position at which the matcher
succeeds is found by the scan. -/
theorem scanAll_reach_of_noOverlap
    (hm1 : ∀ pre, m pre [] = none)
    (hm2 : ∀ pre suf n a, m pre suf = some (n, a) → 1 ≤ n)
    {text : List Char} {p ℓ : Nat} {a : α}
    (hno : NoOverlap m text)
    (hocc : occAt m text p = some (ℓ, a)) :
    (p, ℓ, a) ∈ scanAll m text := by
  apply scanAll_reach hm1 hm2 hocc
  intro q ℓ' b hmem hqlt
  exact hno q ℓ' b p (scanAll_sound hmem) (by rw [hocc]; rfl) hqlt

/-- With at least two match positions and pairwise non-overlap, the
scan finds at least two matches. -/
theorem scanAll_two_of_noOverlap
    (hm1 : ∀ pre, m pre [] = none)
    (hm2 : ∀ pre suf n a, m pre suf = some (n, a) → 1 ≤ n)
    {text : List Char} {p1 p2 : Nat}
    (hno : NoOverlap m text)
    (hne : p1 ≠ p2)
    (h1 : p1 ∈ occPositions m text)
    (h2 : p2 ∈ occPositions m text) :
    2 ≤ (scanAll m text).length := by
  have ho1 := (mem_occPositions hm1).mp h1
  have ho2 := (mem_occPositions hm1).mp h2
  obtain ⟨⟨ℓ1, a1⟩, hv1⟩ := Option.isSome_iff_exists.mp ho1
  obtain ⟨⟨ℓ2, a2⟩, hv2⟩ := Option.isSome_iff_exists.mp ho2
  have hmem1 : (p1, ℓ1, a1) ∈ scanAll m text :=
    scanAll_reach_of_noOverlap hm1 hm2 hno hv1
  have hmem2 : (p2, ℓ2, a2) ∈ scanAll m text :=
    scanAll_reach_of_noOverlap hm1 hm2 hno hv2
  cases hscan : scanAll m text with
  | nil => rw [hscan] at hmem1; exact absurd hmem1 (List.not_mem_nil _)
  | cons x t =>
    cases t with
    | nil =>
      exfalso
      rw [hscan, List.mem_singleton] at hmem1 hmem2
      apply hne
      have := hmem1.trans hmem2.symm
      rw [Prod.mk.injEq] at this
      exact this.1
    | cons y l => simp [List.length_cons]

end GenScanLemmas

section MatcherLemmas

theorem orElse_invert {β : Type} {x : Option β} {f : Unit → Option β} {v : β}
    (h : x.orElse f = some v) : x = some v ∨ (x = none ∧ f () = some v) := by
  cases x with
  | none => right; exact ⟨rfl, by simpa [Option.orElse] using h⟩
  | some w => left; simpa [Option.orElse] using h

theorem firstSome_eq_some {β : Type} {f : Nat → Option β} {v : β} :
    ∀ {n : Nat}, firstSome f n = some v → ∃ j, j ≤ n ∧ f j = some v := by
  intro n
  induction n with
  | zero => intro h; exact ⟨0, le_refl _, h⟩
  | succ n ih =>
    intro h
    rw [firstSome] at h
    rcases orElse_invert h with h1 | ⟨-, h2⟩
    · exact ⟨n + 1, le_refl _, h1⟩
    · obtain ⟨j, hj, hf⟩ := ih h2
      exact ⟨j, by omega, hf⟩

theorem firstSomePos_eq_some {β : Type} {f : Nat → Option β} {v : β} :
    ∀ {n : Nat}, firstSomePos f n = some v → ∃ j, 1 ≤ j ∧ j ≤ n ∧ f j = some v := by
  intro n
  induction n with
  | zero => intro h; rw [firstSomePos] at h; exact absurd h (by simp)
  | succ n ih =>
    intro h
    rw [firstSomePos] at h
    rcases orElse_invert h with h1 | ⟨-, h2⟩
    · exact ⟨n + 1, by omega, le_refl _, h1⟩
    · obtain ⟨j, hj1, hj2, hf⟩ := ih h2
      exact ⟨j, hj1, by omega, hf⟩

theorem maxRun_le_length (f : Char → Bool) : ∀ l : List Char, maxRun f l ≤ l.length := by
  intro l
  induction l with
  | nil => simp [maxRun]
  | cons c r ih =>
    rw [maxRun]
    split
    · simpa using ih
    · simp

theorem all_take_of_le_maxRun (f : Char → Bool) :
    ∀ (l : List Char) (j : Nat), j ≤ maxRun f l → (l.take j).all f = true := by
  intro l
  induction l with
  | nil => intro j hj; simp [maxRun] at hj; subst hj; simp
  | cons c r ih =>
    intro j hj
    rw [maxRun] at hj
    match j with
    | 0 => simp
    | j + 1 =>
      split at hj
      · rename_i hc
        rw [List.take_succ_cons, List.all_cons, hc, Bool.true_and]
        exact ih j (by omega)
      · omega

theorem tailMatch_pos {s : List Char} {x : Nat × List Char}
    (h : tailMatch s = some x) : 1 ≤ x.1 := by
  unfold tailMatch at h
  obtain ⟨j, hj1, -, hf⟩ := firstSomePos_eq_some h
  dsimp only at hf
  split at hf
  · have := Option.some.inj hf
    rw [← this]
    dsimp only
    omega
  · exact absurd hf (by simp)

theorem dimRep_shape {β : Type} {l : List Char} {k : Nat → Option β} {v : β}
    (h : dimRep l k = some v) :
    ∃ c inner sp, k c = some v ∧ 2 ≤ c ∧
      l.take c = '[' :: (inner ++ ']' :: sp) ∧
      1 ≤ inner.length ∧ inner.all dimChar = true ∧
      sp.all (fun c => c == ' ') = true := by
  unfold dimRep at h
  split at h
  · rename_i r
    dsimp only at h
    split at h
    · rename_i hd
      split at h
      · rename_i r2 hdrop
        obtain ⟨j, hj, hf⟩ := firstSome_eq_some h
        refine ⟨2 + maxRun dimChar r + j, r.take (maxRun dimChar r), r2.take j, hf,
          by omega, ?_, ?_, ?_, ?_⟩
        · rw [show 2 + maxRun dimChar r + j = (maxRun dimChar r + (1 + j)) + 1 by omega]
          rw [List.take_succ_cons]
          congr 1
          rw [List.take_add, hdrop]
          rw [Nat.add_comm 1 j, List.take_succ_cons]
        · rw [List.length_take]
          have := maxRun_le_length dimChar r
          omega
        · exact all_take_of_le_maxRun dimChar r _ (le_refl _)
        · exact all_take_of_le_maxRun (fun c => c == ' ') r2 j hj
      · exact absurd h (by simp)
    · exact absurd h (by simp)
  · exact absurd h (by simp)

theorem afterKw_pos {s : List Char} {x : Nat × List Char × List Char}
    (h : afterKw s = some x) : 1 ≤ x.1 := by
  unfold afterKw at h
  obtain ⟨a, -, hf⟩ := firstSome_eq_some h
  rcases orElse_invert hf with hreps | ⟨-, h0⟩
  · obtain ⟨c1, inner1, sp1, hk1, hc1, -, -, -, -⟩ := dimRep_shape hreps
    rcases orElse_invert hk1 with htwo | ⟨-, hone⟩
    · obtain ⟨c2, inner2, sp2, hk2, hc2, -, -, -, -⟩ := dimRep_shape htwo
      obtain ⟨t, ht, hx⟩ := Option.map_eq_some'.mp hk2
      rw [← hx]
      simp only []
      omega
    · obtain ⟨t, ht, hx⟩ := Option.map_eq_some'.mp hone
      have := tailMatch_pos ht
      rw [← hx]
      simp only []
      omega
  · obtain ⟨t, ht, hx⟩ := Option.map_eq_some'.mp h0
    have := tailMatch_pos ht
    rw [← hx]
    simp only []
    omega

theorem listStarts_take : ∀ {a b : List Char}, listStarts a b = true → b.take a.length = a := by
  intro a
  induction a with
  | nil => intro b _; rfl
  | cons x xs ih =>
    intro b h
    cases b with
    | nil => simp [listStarts] at h
    | cons y ys =>
      rw [listStarts, Bool.and_eq_true] at h
      rw [List.length_cons, List.take_succ_cons, ih h.2, (beq_iff_eq.mp h.1)]

theorem take_one_of_head? {l : List Char} {c : Char} (h : l.head? = some c) :
    l.take 1 = [c] := by
  cases l with
  | nil => simp at h
  | cons x t =>
    simp at h
    rw [List.take_succ_cons, List.take_zero, h]

theorem tailMatch_decomp {s : List Char} {t : Nat} {nm : List Char}
    (h : tailMatch s = some (t, nm)) :
    ∃ ws2 ws3 semi,
      s.take t = ws2 ++ nm ++ ws3 ++ semi ∧
      1 ≤ ws2.length ∧ ws2.all wsChar = true ∧
      1 ≤ nm.length ∧ nm.all identChar = true ∧
      ws3.all wsChar = true ∧ (semi = [] ∨ semi = [';']) := by
  unfold tailMatch at h
  obtain ⟨j, hj1, hjle, hf⟩ := firstSomePos_eq_some h
  dsimp only at hf
  split at hf
  · rename_i hr
    have heq := Option.some.inj hf
    rw [Prod.mk.injEq] at heq
    obtain ⟨ht, hnm⟩ := heq
    refine ⟨s.take j,
      ((s.drop j).drop (maxRun identChar (s.drop j))).take
        (maxRun wsChar ((s.drop j).drop (maxRun identChar (s.drop j)))),
      (((s.drop j).drop (maxRun identChar (s.drop j))).drop
        (maxRun wsChar ((s.drop j).drop (maxRun identChar (s.drop j))))).take
        (if (((s.drop j).drop (maxRun identChar (s.drop j))).drop
          (maxRun wsChar ((s.drop j).drop (maxRun identChar (s.drop j))))).head? ==
            some ';' then 1 else 0),
      ?_, ?_, ?_, ?_, ?_, ?_, ?_⟩
    · rw [← ht, ← hnm]
      rw [show j + maxRun identChar (s.drop j) +
          maxRun wsChar ((s.drop j).drop (maxRun identChar (s.drop j))) +
          (if (((s.drop j).drop (maxRun identChar (s.drop j))).drop
            (maxRun wsChar ((s.drop j).drop (maxRun identChar (s.drop j))))).head? ==
              some ';' then 1 else 0) =
          j + (maxRun identChar (s.drop j) +
            (maxRun wsChar ((s.drop j).drop (maxRun identChar (s.drop j))) +
              (if (((s.drop j).drop (maxRun identChar (s.drop j))).drop
                (maxRun wsChar ((s.drop j).drop (maxRun identChar (s.drop j))))).head? ==
                  some ';' then 1 else 0))) by omega]
      rw [List.take_add, List.take_add, List.take_add]
      simp [List.append_assoc]
    · rw [List.length_take]
      have := maxRun_le_length wsChar s
      omega
    · exact all_take_of_le_maxRun wsChar s j hjle
    · rw [← hnm, List.length_take]
      have := maxRun_le_length identChar (s.drop j)
      omega
    · rw [← hnm]
      exact all_take_of_le_maxRun identChar (s.drop j) _ (le_refl _)
    · exact all_take_of_le_maxRun wsChar _ _ (le_refl _)
    · cases hc : (((s.drop j).drop (maxRun identChar (s.drop j))).drop
        (maxRun wsChar ((s.drop j).drop (maxRun identChar (s.drop j))))).head? ==
          some ';' with
      | false => left; rfl
      | true => right; exact take_one_of_head? (beq_iff_eq.mp hc)
  · exact absurd hf (by simp)

theorem afterKw_decomp {s : List Char} {n : Nat} {d nm : List Char}
    (h : afterKw s = some (n, d, nm)) :
    ∃ ws1 gs ws2 ws3 semi,
      s.take n = ws1 ++ List.flatten gs ++ ws2 ++ nm ++ ws3 ++ semi ∧
      gs.length ≤ 2 ∧ ws1.all wsChar = true ∧ (∀ g ∈ gs, GroupShape g) ∧
      1 ≤ ws2.length ∧ ws2.all wsChar = true ∧
      1 ≤ nm.length ∧ nm.all identChar = true ∧
      ws3.all wsChar = true ∧ (semi = [] ∨ semi = [';']) ∧
      d = gs.getLast?.getD [] := by
  unfold afterKw at h
  obtain ⟨a, hale, hf⟩ := firstSome_eq_some h
  dsimp only at hf
  rcases orElse_invert hf with hreps | ⟨-, h0⟩
  · obtain ⟨c1, inner1, sp1, hk1, -, htake1, hlen1, hall1, hsp1⟩ := dimRep_shape hreps
    rcases orElse_invert hk1 with htwo | ⟨-, hone⟩
    · obtain ⟨c2, inner2, sp2, hk2, -, htake2, hlen2, hall2, hsp2⟩ := dimRep_shape htwo
      obtain ⟨t, ht, hx⟩ := Option.map_eq_some'.mp hk2
      rw [Prod.mk.injEq] at hx
      obtain ⟨hn, hx2⟩ := hx
      rw [Prod.mk.injEq] at hx2
      obtain ⟨hd, hnm⟩ := hx2
      obtain ⟨ws2, ws3, semi, hdc, hw1, hw2, hn1, hn2, hw3, hsemi⟩ := tailMatch_decomp ht
      refine ⟨s.take a, [(s.drop a).take c1, ((s.drop a).drop c1).take c2],
        ws2, ws3, semi, ?_, by simp, all_take_of_le_maxRun wsChar s a hale,
        ?_, hw1, hw2, ?_, ?_, hw3, hsemi, by rw [← hd]; rfl⟩
      · rw [← hn, show a + c1 + c2 + t.1 = a + (c1 + (c2 + t.1)) by omega]
        rw [List.take_add, List.take_add, List.take_add]
        rw [hnm] at hdc
        rw [hdc]
        simp [List.append_assoc]
      · intro g hg
        rcases List.mem_cons.mp hg with hg1 | hg2
        · exact ⟨inner1, sp1, by rw [hg1, htake1], hlen1, hall1, hsp1⟩
        · rw [List.mem_singleton] at hg2
          exact ⟨inner2, sp2, by rw [hg2, htake2], hlen2, hall2, hsp2⟩
      · rw [← hnm]; exact hn1
      · rw [← hnm]; exact hn2
    · obtain ⟨t, ht, hx⟩ := Option.map_eq_some'.mp hone
      rw [Prod.mk.injEq] at hx
      obtain ⟨hn, hx2⟩ := hx
      rw [Prod.mk.injEq] at hx2
      obtain ⟨hd, hnm⟩ := hx2
      obtain ⟨ws2, ws3, semi, hdc, hw1, hw2, hn1, hn2, hw3, hsemi⟩ := tailMatch_decomp ht
      refine ⟨s.take a, [(s.drop a).take c1],
        ws2, ws3, semi, ?_, by simp, all_take_of_le_maxRun wsChar s a hale,
        ?_, hw1, hw2, ?_, ?_, hw3, hsemi, by rw [← hd]; rfl⟩
      · rw [← hn, show a + c1 + t.1 = a + (c1 + t.1) by omega]
        rw [List.take_add, List.take_add]
        rw [hnm] at hdc
        rw [hdc]
        simp [List.append_assoc]
      · intro g hg
        rw [List.mem_singleton] at hg
        exact ⟨inner1, sp1, by rw [hg, htake1], hlen1, hall1, hsp1⟩
      · rw [← hnm]; exact hn1
      · rw [← hnm]; exact hn2
  · obtain ⟨t, ht, hx⟩ := Option.map_eq_some'.mp h0
    rw [Prod.mk.injEq] at hx
    obtain ⟨hn, hx2⟩ := hx
    rw [Prod.mk.injEq] at hx2
    obtain ⟨hd, hnm⟩ := hx2
    obtain ⟨ws2, ws3, semi, hdc, hw1, hw2, hn1, hn2, hw3, hsemi⟩ := tailMatch_decomp ht
    refine ⟨s.take a, [], ws2, ws3, semi, ?_, by simp,
      all_take_of_le_maxRun wsChar s a hale,
      by intro g hg; exact absurd hg (List.not_mem_nil g),
      hw1, hw2, ?_, ?_, hw3, hsemi, by rw [← hd]; rfl⟩
    · rw [← hn, show a + t.1 = a + t.1 by omega]
      rw [List.take_add]
      rw [hnm] at hdc
      rw [hdc]
      simp [List.append_assoc]
    · rw [← hnm]; exact hn1
    · rw [← hnm]; exact hn2

theorem bodyMatch_nil (kw : List Char) : bodyMatch kw [] = none := by
  match kw with
  | [] => rfl
  | a :: as => rfl

theorem bodyMatch_pos {kw suf : List Char} {x : Nat × List Char × List Char}
    (h : bodyMatch kw suf = some x) : 1 ≤ x.1 := by
  unfold bodyMatch at h
  split at h
  · obtain ⟨y, hy, hx⟩ := Option.map_eq_some'.mp h
    have := afterKw_pos hy
    rw [← hx]
    simp only []
    omega
  · exact absurd h (by simp)

theorem kindM_nil (kw : List Char) : ∀ pre, kindM kw pre [] = none := by
  intro pre
  unfold kindM
  split
  · rfl
  · exact bodyMatch_nil kw

theorem kindM_pos (kw : List Char) :
    ∀ pre suf n a, kindM kw pre suf = some (n, a) → 1 ≤ n := by
  intro pre suf n a h
  unfold kindM at h
  split at h
  · exact absurd h (by simp)
  · exact bodyMatch_pos h

theorem moduleBody_nil : moduleBody [] = none := rfl

theorem moduleBody_pos {suf : List Char} {x : Nat × List Char}
    (h : moduleBody suf = some x) : 1 ≤ x.1 := by
  unfold moduleBody at h
  split at h
  · obtain ⟨y, -, hx⟩ := Option.map_eq_some'.mp h
    rw [← hx]
    simp only []
    omega
  · exact absurd h (by simp)

theorem moduleM_nil : ∀ pre, moduleM pre [] = none := by
  intro pre
  unfold moduleM
  split
  · rfl
  · exact moduleBody_nil

theorem moduleM_pos :
    ∀ pre suf n a, moduleM pre suf = some (n, a) → 1 ≤ n := by
  intro pre suf n a h
  unfold moduleM at h
  split at h
  · exact absurd h (by simp)
  · exact moduleBody_pos h

end MatcherLemmas

section DictLemmas

theorem lookup_map_replace_ne {k v n : String} (hnk : n ≠ k) :
    ∀ d : List (String × String),
      List.lookup n (d.map (fun p => if p.1 == k then (k, v) else p)) =
      List.lookup n d := by
  intro d
  induction d with
  | nil => rfl
  | cons p t ih =>
    by_cases hp : p.1 = k
    · rw [List.map_cons, if_pos (by rw [beq_iff_eq]; exact hp)]
      rw [List.lookup, List.lookup]
      rw [show (n == k) = false by rw [beq_eq_false_iff_ne]; exact hnk,
        show (n == p.1) = false by rw [beq_eq_false_iff_ne]; rw [hp]; exact hnk]
      exact ih
    · rw [List.map_cons, if_neg (by rw [beq_iff_eq]; exact hp)]
      rw [List.lookup, List.lookup]
      cases hnp : n == p.1 with
      | true => rfl
      | false => exact ih

theorem lookup_map_replace_eq {k v : String} :
    ∀ d : List (String × String), d.any (fun p => p.1 == k) = true →
      List.lookup k (d.map (fun p => if p.1 == k then (k, v) else p)) = some v := by
  intro d
  induction d with
  | nil => intro h; simp at h
  | cons p t ih =>
    intro h
    by_cases hp : p.1 = k
    · rw [List.map_cons, if_pos (by rw [beq_iff_eq]; exact hp)]
      rw [List.lookup, beq_self_eq_true]
    · rw [List.map_cons, if_neg (by rw [beq_iff_eq]; exact hp)]
      rw [List.lookup]
      rw [show (k == p.1) = false by rw [beq_eq_false_iff_ne]; exact fun he => hp he.symm]
      apply ih
      rw [List.any_cons] at h
      rw [show (p.1 == k) = false by rw [beq_eq_false_iff_ne]; exact hp] at h
      simpa using h

theorem lookup_append_no_key {k v : String} :
    ∀ d : List (String × String), d.any (fun p => p.1 == k) = false →
      List.lookup k (d ++ [(k, v)]) = some v := by
  intro d
  induction d with
  | nil => intro h; simp [List.lookup]
  | cons p t ih =>
    intro h
    rw [List.any_cons] at h
    have hp : (p.1 == k) = false := by
      cases hpk : p.1 == k with
      | true => rw [hpk] at h; simp at h
      | false => rfl
    rw [List.cons_append, List.lookup]
    rw [show (k == p.1) = false by
      rw [beq_eq_false_iff_ne] at hp ⊢; exact fun he => hp he.symm]
    apply ih
    cases ht : t.any (fun p => p.1 == k) with
    | true => rw [hp, ht] at h; simp at h
    | false => rfl

theorem lookup_append_single_ne {k v n : String} (hnk : n ≠ k) :
    ∀ d : List (String × String),
      List.lookup n (d ++ [(k, v)]) = List.lookup n d := by
  intro d
  induction d with
  | nil =>
    simp [List.lookup, beq_eq_false_iff_ne.mpr hnk]
  | cons p t ih =>
    simp only [List.cons_append, List.lookup]
    cases n == p.1 with
    | true => rfl
    | false => exact ih

theorem lookup_dictInsert (d : List (String × String)) (k v n : String) :
    List.lookup n (dictInsert d k v) = if n = k then some v else List.lookup n d := by
  unfold dictInsert
  split
  · rename_i hany
    by_cases hnk : n = k
    · subst hnk
      rw [if_pos rfl]
      exact lookup_map_replace_eq d hany
    · rw [if_neg hnk]
      exact lookup_map_replace_ne hnk d
  · rename_i hany
    by_cases hnk : n = k
    · subst hnk
      rw [if_pos rfl]
      exact lookup_append_no_key d (Bool.eq_false_iff.mpr hany)
    · rw [if_neg hnk]
      exact lookup_append_single_ne hnk d

theorem lookup_buildDictAux (n : String) :
    ∀ (l d : List (String × String)),
      List.lookup n (List.foldl (fun d p => dictInsert d p.2 p.1) d l) =
      match l.reverse.find? (fun p => p.2 == n) with
      | some p => some p.1
      | none => List.lookup n d := by
  intro l
  induction l with
  | nil => intro d; rfl
  | cons x t ih =>
    intro d
    rw [List.foldl_cons, ih]
    rw [List.reverse_cons, List.find?_append]
    cases hf : t.reverse.find? (fun p => p.2 == n) with
    | some p => rfl
    | none =>
      rw [Option.none_or]
      rw [List.find?]
      cases hx : x.2 == n with
      | true =>
        rw [lookup_dictInsert]
        rw [if_pos (by rw [beq_iff_eq] at hx; exact hx.symm)]
      | false =>
        rw [lookup_dictInsert]
        rw [if_neg (by rw [beq_eq_false_iff_ne] at hx; exact fun he => hx he.symm)]
        rfl

/-- The name-to-dimension lookup of the built dictionary is the
dimension of the last occurrence of the name. -/
theorem lookup_buildDict (l : List (String × String)) (n : String) :
    List.lookup n (buildDict l) =
    match l.reverse.find? (fun p => p.2 == n) with
    | some p => some p.1
    | none => none :=
  lookup_buildDictAux n l []

theorem run_ok_fields {o : List String → List String} {fn text : String}
    {out : RunOutput} (h : run o fn text = Except.ok out) :
    out.wires = wireRawList text ∧ out.regs = regRawList text ∧
    out.csvRows = buildDict (wireRawList text ++ regRawList text) ∧
    out.numUniqueSignalNames = (o (wireNamesOf text) ++ o (regNamesOf text)).length := by
  unfold run at h
  dsimp only at h
  split at h
  · exact absurd h (by simp)
  · have he := Except.ok.inj h
    rw [← he]
    exact ⟨rfl, rfl, rfl, rfl⟩

end DictLemmas

theorem run_error_of_missing_kind (o : List String → List String) (fn text : String)
    (h : wireRawList text = [] ∨ regRawList text = []) :
    ∃ e, run o fn text = Except.error e := by
  unfold run
  dsimp only
  split
  · exact ⟨_, rfl⟩
  · rename_i hcond
    exact absurd (Or.symm h) hcond

/-- Claim C1: the claim says that when the wire matcher or the register
matcher finds zero matches the program proceeds with an empty list and
still writes both output files.  The code instead leaves the count
variable of the missing kind unbound, so the total-count line raises
`NameError` and the run aborts before writing any file: on the input
`reg r;` (no wire matches) and on the input `wire w;` (no register
matches) the run ends in the error state and the set of written files
is empty. -/
theorem noMatches_abort_eval :
    run id "m.v" "reg r;" = Except.error (PyError.nameError "numInternalWires") ∧
    run id "m.v" "wire w;" = Except.error (PyError.nameError "numInternalRegs") ∧
    filesWritten (run id "m.v" "reg r;") = [] ∧
    filesWritten (run id "m.v" "wire w;") = [] := by
  exact ⟨rfl, rfl, rfl, rfl⟩

/-- Claim C10: the wire and reg patterns impose no left word boundary
beyond the input/output lookbehinds, so on `tripwire sig;` the wire
matcher fires on the `wire` ending the identifier `tripwire` and emits
the declaration `("", "sig")`; likewise the reg matcher on `xreg r1;`
emits `("", "r1")`. -/
theorem keyword_no_left_boundary :
    wireRawList "tripwire sig;" = [("", "sig")] ∧
    regRawList "xreg r1;" = [("", "r1")] := by decide

/-- Claim C2, counterexample: in the text `wire wire x;` the second
`wire` keyword at position 5 heads a declaration of the matched shape
(`wire x;`, body match of length 7, name `x`) and is not preceded by
`input` or `output`, yet the scan emits no match at position 5 — the
first match, spanning positions 0 through 9, swallows it.  So inclusion
does not follow from the absence of a port prefix alone. -/
theorem port_exclusion_iff_counterexample :
    bodyMatch wireKw ("wire wire x;".toList.drop 5) = some (7, [], ['x']) ∧
    ¬ PrecededByPort "wire wire x;".toList 5 ∧
    scanAll (kindM wireKw) "wire wire x;".toList =
      [(0, 10, [], ['w', 'i', 'r', 'e'])] := by decide

/-- Claim C2 (amended): a keyword occurrence heading a declaration of
the matched shape, such that no earlier match of the scan overlaps it,
is emitted by the scan if and only if the keyword is not preceded, with
0 up to 16 intervening whitespace characters, by the literal characters
`input` or `output`; an occurrence so preceded is never emitted. -/
theorem port_exclusion_iff_amended (kw text : List Char) (p ℓ : Nat) (d nm : List Char)
    (hbody : bodyMatch kw (text.drop p) = some (ℓ, d, nm))
    (hover : ∀ q ℓ' b, (q, ℓ', b) ∈ scanAll (kindM kw) text → q < p → q + ℓ' ≤ p) :
    (p, ℓ, (d, nm)) ∈ scanAll (kindM kw) text ↔ ¬ PrecededByPort text p := by
  have hiff : PrecededByPort text p ↔ portBlocked ((text.take p).reverse) = true := by
    unfold PrecededByPort portBlocked
    rw [List.any_eq_true]
    constructor
    · rintro ⟨i, hi, h⟩
      refine ⟨i, List.mem_range.mpr (by omega), ?_⟩
      rw [Bool.or_eq_true]
      exact h
    · rintro ⟨i, hmem, h⟩
      rw [List.mem_range] at hmem
      rw [Bool.or_eq_true] at h
      exact ⟨i, by omega, h⟩
  constructor
  · intro hmem hprec
    have hocc := scanAll_sound hmem
    unfold occAt kindM at hocc
    rw [if_pos (hiff.mp hprec)] at hocc
    exact absurd hocc (by simp)
  · intro hprec
    cases hb : portBlocked ((text.take p).reverse) with
    | true => exact absurd (hiff.mpr hb) hprec
    | false =>
      apply scanAll_reach (kindM_nil kw) (kindM_pos kw) _ hover
      unfold occAt kindM
      rw [hb]
      simpa using hbody

/-- Claim C2, witness: on the text `wire a;` the wire occurrence at
position 0 has no earlier match, is not port-prefixed, and is emitted.
-/
theorem port_exclusion_iff_witness :
    (0, 7, (([] : List Char), ['a'])) ∈ scanAll (kindM wireKw) "wire a;".toList :=
  (port_exclusion_iff_amended wireKw "wire a;".toList 0 7 [] ['a'] (by decide)
    (fun q ℓ' b _ hq => absurd hq (Nat.not_lt_zero q))).mpr (by decide)

/-- Claim C3, counterexample: in the text ` module foo (` the module
header at position 1 is well formed and its keyword is preceded by a
space — not by a letter, an underscore or a slash — so by the claim the
resolver should return `foo`.  The pattern's lookbehind also rejects a
preceding space, so the code's resolver finds no match and falls back to
`module` with the diagnostic raised. -/
theorem module_resolver_counterexample :
    occPositions claimModuleM " module foo (".toList = [1] ∧
    occAt claimModuleM " module foo (".toList 1 = some (12, "foo".toList) ∧
    resolveModule " module foo (" = ("module", true) := by decide

/-- Claim C3 (amended): calling a position a header occurrence when the
module pattern body matches there and the preceding character is not a
space, letter, underscore or slash: with zero occurrences the resolver
returns the fallback `module` and raises the diagnostic; with exactly
one occurrence it returns that occurrence's identifier and raises no
diagnostic; with two or more pairwise non-overlapping occurrences it
returns the fallback and raises the diagnostic. -/
theorem module_resolver_amended (text : String) :
    (occPositions moduleM text.toList = [] → resolveModule text = ("module", true)) ∧
    (∀ p ℓ id, occPositions moduleM text.toList = [p] →
      occAt moduleM text.toList p = some (ℓ, id) →
      resolveModule text = (String.mk id, false)) ∧
    (2 ≤ (occPositions moduleM text.toList).length → NoOverlap moduleM text.toList →
      resolveModule text = ("module", true)) := by
  refine ⟨?_, ?_, ?_⟩
  · intro hempty
    unfold resolveModule moduleIdents
    rw [scanAll_of_empty moduleM_nil hempty]
    rfl
  · intro p ℓ id hsingle hocc
    unfold resolveModule moduleIdents
    rw [scanAll_of_single moduleM_nil moduleM_pos hsingle hocc]
    rfl
  · intro h2 hno
    have hlen : 2 ≤ (scanAll moduleM text.toList).length := by
      cases hocc : occPositions moduleM text.toList with
      | nil => rw [hocc] at h2; simp at h2
      | cons p1 t =>
        cases t with
        | nil => rw [hocc] at h2; simp at h2
        | cons p2 rest =>
          have hnd : (occPositions moduleM text.toList).Nodup :=
            List.Nodup.filter _ (List.nodup_range _)
          rw [hocc] at hnd
          have hne : p1 ≠ p2 := by
            intro he
            subst he
            exact (List.nodup_cons.mp hnd).1 (List.mem_cons_self _ _)
          exact scanAll_two_of_noOverlap moduleM_nil moduleM_pos hno hne
            (by rw [hocc]; exact List.mem_cons_self _ _)
            (by rw [hocc]; exact List.mem_cons_of_mem _ (List.mem_cons_self _ _))
    unfold resolveModule moduleIdents
    cases hscan : scanAll moduleM text.toList with
    | nil => rw [hscan] at hlen; simp at hlen
    | cons x t =>
      cases t with
      | nil => rw [hscan] at hlen; simp at hlen
      | cons y rest => rfl

/-- Claim C3, witness: on the text `module foo (` the single header
occurrence at position 0 resolves to `foo` without a diagnostic. -/
theorem module_resolver_witness : resolveModule "module foo (" = ("foo", false) :=
  (module_resolver_amended "module foo (").2.1 0 12 "foo".toList (by decide) (by decide)

/-- Claim C4, counterexample: on `wire [3:0][7:0] x;` the emitted
dimension is `[7:0]`, the last bracketed expression only, not the
concatenation `[3:0][7:0]` of all bracketed expressions that the claim
requires (a repeated capture group keeps only its last repetition). -/
theorem dimension_concatenation_counterexample :
    wireRawList "wire [3:0][7:0] x;" = [("[7:0]", "x")] ∧
    ("[3:0][7:0]", "x") ∉ wireRawList "wire [3:0][7:0] x;" := by decide

/-- Claim C4 (amended): every match decomposes, character for
character, as the keyword, optional whitespace, at most two bracketed
dimension groups exactly as they stand in the source text, mandatory
whitespace, the captured name, optional whitespace and an optional
semicolon — and the emitted dimension field IS the last of those groups
(a bracket pair around a non-empty run of dimension characters,
possibly with absorbed trailing spaces), or the empty string exactly
when no group is present. -/
theorem dimension_last_bracket_shape (kw suf : List Char) (ℓ : Nat) (d nm : List Char)
    (h : bodyMatch kw suf = some (ℓ, d, nm)) :
    ∃ ws1 gs ws2 ws3 semi,
      suf.take ℓ = kw ++ ws1 ++ List.flatten gs ++ ws2 ++ nm ++ ws3 ++ semi ∧
      gs.length ≤ 2 ∧ ws1.all wsChar = true ∧ (∀ g ∈ gs, GroupShape g) ∧
      1 ≤ ws2.length ∧ ws2.all wsChar = true ∧
      1 ≤ nm.length ∧ nm.all identChar = true ∧
      ws3.all wsChar = true ∧ (semi = [] ∨ semi = [';']) ∧
      d = gs.getLast?.getD [] := by
  unfold bodyMatch at h
  split at h
  · rename_i hstart
    obtain ⟨⟨n, d2, nm2⟩, hy, hx⟩ := Option.map_eq_some'.mp h
    rw [Prod.mk.injEq] at hx
    obtain ⟨hℓ, hx2⟩ := hx
    rw [Prod.mk.injEq] at hx2
    obtain ⟨hd, hnm⟩ := hx2
    subst hd
    subst hnm
    obtain ⟨ws1, gs, ws2, ws3, semi, hdc, hgl, hws1, hgs, hw2a, hw2b, hna, hnb,
      hw3, hsemi, hdlast⟩ := afterKw_decomp hy
    refine ⟨ws1, gs, ws2, ws3, semi, ?_, hgl, hws1, hgs, hw2a, hw2b, hna, hnb,
      hw3, hsemi, hdlast⟩
    rw [← hℓ, List.take_add, listStarts_take hstart, hdc]
    simp [List.append_assoc]
  · exact absurd h (by simp)

/-- Claim C4, witness: the match on `wire [3:0] a;` decomposes as the
keyword, one space, the single group `[3:0]`, one space, the name `a`
and the semicolon, and the captured dimension `[3:0]` is that last (and
only) group. -/
theorem dimension_last_bracket_witness :
    ∃ ws1 gs ws2 ws3 semi,
      ("wire [3:0] a;".toList).take 13 =
        wireKw ++ ws1 ++ List.flatten gs ++ ws2 ++ "a".toList ++ ws3 ++ semi ∧
      gs.length ≤ 2 ∧ ws1.all wsChar = true ∧ (∀ g ∈ gs, GroupShape g) ∧
      1 ≤ ws2.length ∧ ws2.all wsChar = true ∧
      1 ≤ ("a".toList).length ∧ ("a".toList).all identChar = true ∧
      ws3.all wsChar = true ∧ (semi = [] ∨ semi = [';']) ∧
      "[3:0]".toList = gs.getLast?.getD [] :=
  dimension_last_bracket_shape wireKw "wire [3:0] a;".toList 13 "[3:0]".toList
    "a".toList (by decide)

/-- Claim C5: the dictionary written to the CSV is built by iterating
the wire list followed by the register list, duplicates included, in
original order, assigning each name its dimension; so looking a name up
yields the dimension of its last occurrence in that combined sequence
(the last write wins). -/
theorem mapping_last_write_wins :
    (∀ (o : List String → List String) (fn text : String) (out : RunOutput),
      run o fn text = Except.ok out → out.csvRows = buildDict (out.wires ++ out.regs)) ∧
    (∀ (l : List (String × String)) (n : String),
      List.lookup n (buildDict l) =
      match l.reverse.find? (fun p => p.2 == n) with
      | some p => some p.1
      | none => none) := by
  constructor
  · intro o fn text out h
    obtain ⟨hw, hr, hc, -⟩ := run_ok_fields h
    rw [hc, hw, hr]
  · exact lookup_buildDict

/-- Claim C5, witness: on the deduplication example the run's CSV rows
are the built dictionary, and on the raw register occurrences `a`,
`b` with dimension, `a` again, the mapping holds the empty dimension of
the last `a`. -/
theorem mapping_last_write_wins_witness :
    dedupExampleOut.csvRows = buildDict (dedupExampleOut.wires ++ dedupExampleOut.regs) ∧
    List.lookup "a" (buildDict [("", "a"), ("[3:0]", "b"), ("", "a")]) = some "" := by
  constructor
  · exact mapping_last_write_wins.1 List.dedup "m.v" dedupExampleText dedupExampleOut rfl
  · rw [mapping_last_write_wins.2 [("", "a"), ("[3:0]", "b"), ("", "a")] "a"]
    rfl

/-- Claim C6: the reported total unique count is the length of the
concatenation of the two independently deduplicated name lists, which
equals the unique wire count plus the unique register count; there is
no cross-kind uniqueness pass, so a name occurring as both a wire and a
register makes the total strictly exceed the size of the joint
deduplicated name set. -/
theorem unique_total_sum (o : List String → List String) (fn text : String)
    (ho : ∀ l : List String, List.Perm (o l) l.dedup) :
    ((o (wireNamesOf text) ++ o (regNamesOf text)).length =
      (wireNamesOf text).dedup.length + (regNamesOf text).dedup.length) ∧
    (∀ out : RunOutput, run o fn text = Except.ok out →
      out.numUniqueSignalNames = (o (wireNamesOf text) ++ o (regNamesOf text)).length) ∧
    (∀ n, n ∈ wireNamesOf text → n ∈ regNamesOf text →
      (wireNamesOf text ++ regNamesOf text).dedup.length <
        (o (wireNamesOf text) ++ o (regNamesOf text)).length) := by
  refine ⟨?_, ?_, ?_⟩
  · rw [List.length_append, (ho _).length_eq, (ho _).length_eq]
  · intro out h
    exact (run_ok_fields h).2.2.2
  · intro n hw hr
    rw [List.length_append, (ho _).length_eq, (ho _).length_eq]
    rw [← List.card_toFinset, ← List.card_toFinset, ← List.card_toFinset]
    rw [List.toFinset_append]
    have hkey := Finset.card_union_add_card_inter
      (wireNamesOf text).toFinset (regNamesOf text).toFinset
    have hpos : 0 < ((wireNamesOf text).toFinset ∩ (regNamesOf text).toFinset).card :=
      Finset.card_pos.mpr
        ⟨n, Finset.mem_inter.mpr ⟨List.mem_toFinset.mpr hw, List.mem_toFinset.mpr hr⟩⟩
    omega

/-- Claim C6, witness: on `wire x; reg x;` the name `x` is both a wire
and a register; the total unique count is the sum of the two unique
counts and strictly exceeds the size of the joint deduplicated set. -/
theorem unique_total_sum_witness :
    ((List.dedup (wireNamesOf "wire x; reg x;") ++
        List.dedup (regNamesOf "wire x; reg x;")).length =
      (wireNamesOf "wire x; reg x;").dedup.length +
        (regNamesOf "wire x; reg x;").dedup.length) ∧
    ((wireNamesOf "wire x; reg x;" ++ regNamesOf "wire x; reg x;").dedup.length <
      (List.dedup (wireNamesOf "wire x; reg x;") ++
        List.dedup (regNamesOf "wire x; reg x;")).length) :=
  ⟨(unique_total_sum List.dedup "m.v" "wire x; reg x;" (fun l => List.Perm.refl _)).1,
   (unique_total_sum List.dedup "m.v" "wire x; reg x;" (fun l => List.Perm.refl _)).2.2 "x"
     (by decide) (by decide)⟩

set_option maxRecDepth 8000 in
/-- Claim C7: the end-to-end example.  On the module header `module
foo (` followed by a port wire `clk`, a port register `data`, the
internal wire `internal_a` with dimension `[3:0]` and the internal
register `internal_b` declared twice, the module name resolves to
`foo`; the wire list holds exactly `("[3:0]", "internal_a")`; the
register list holds `("", "internal_b")` twice; the unique counts are
1, 1 and 2; the CSV holds exactly the two data rows `internal_a,[3:0]`
and `internal_b,`; and neither `clk` nor `data` occurs in either output
file. -/
theorem end_to_end_example :
    run List.dedup "foo.v" endToEndText = Except.ok endToEndOut ∧
    resolveModule endToEndText = ("foo", false) ∧
    wireRawList endToEndText = [("[3:0]", "internal_a")] ∧
    regRawList endToEndText = [("", "internal_b"), ("", "internal_b")] ∧
    endToEndOut.moduleName = "foo" ∧
    endToEndOut.numUniqueWireNames = 1 ∧
    endToEndOut.numUniqueRegNames = 1 ∧
    endToEndOut.numUniqueSignalNames = 2 ∧
    endToEndOut.csvRows = [("internal_a", "[3:0]"), ("internal_b", "")] ∧
    endToEndOut.csvText = "Field Name,Field Dimension\r\ninternal_a,[3:0]\r\ninternal_b,\r\n" ∧
    containsSub "clk" endToEndOut.csvText = false ∧
    containsSub "data" endToEndOut.csvText = false ∧
    containsSub "clk" endToEndOut.reportStr = false ∧
    containsSub "data" endToEndOut.reportStr = false := by
  exact ⟨rfl, by decide, by decide, by decide, rfl, rfl, rfl, rfl, rfl, rfl,
    rfl, rfl, rfl, rfl⟩

/-- Claim C8: the pipeline is a pure function of the input text, and
the contents of the two output files do not depend on the enumeration
order the set-based deduplication uses, so two runs on identical input
produce identical CSV and report files whatever the set order does. -/
theorem outputs_independent_of_set_order (fn text : String)
    (o1 o2 : List String → List String) :
    filesWritten (run o1 fn text) = filesWritten (run o2 fn text) := by
  unfold run
  dsimp only
  split
  · rfl
  · rfl

/-- Claim C9: with a bare argument vector the program exits before
writing anything, and with a filename that is not an existing file it
also exits before writing anything: in both cases the set of written
files is empty. -/
theorem fatal_conditions_no_files (argvLen : Nat) (filenameArg : Option String)
    (disk : String → Option String) (o : List String → List String) :
    (argvLen = 1 → mainFiles argvLen filenameArg disk o = []) ∧
    (∀ fn, filenameArg = some fn → disk fn = none →
      mainFiles argvLen filenameArg disk o = []) := by
  constructor
  · intro h
    unfold mainFiles
    rw [if_pos h]
  · intro fn hfn hdisk
    unfold mainFiles
    split
    · rfl
    · rw [hfn]
      dsimp only
      rw [hdisk]

/-- Claim C9, witness: a bare argument vector writes no files. -/
theorem fatal_conditions_no_files_witness :
    mainFiles 1 (some "a.v") (fun _ => none) id = [] :=
  (fatal_conditions_no_files 1 (some "a.v") (fun _ => none) id).1 rfl

end ExtractSignals
